import Mathlib

/-!
# typing.c: the typing-practice session

A shallow embedding of `src/typing.c` and the properties of its loader, its
keystroke loop, its statistics and its exit paths.

Conventions of the embedding.
* A C `char` is its bit pattern, a `Byte` in `0..255`; the conversion of an
  `int` to `char` in an assignment `mem[i] = ch` is `toChar` (reduction modulo
  256). Only equality of chars is ever used by the program, and equality does
  not depend on the signedness of `char`.
* A C `int` is an `Int`; the counters are assumed to stay in the range of `int`
  (the program has no defined behaviour otherwise). The one `int` product of
  the program, `100 * (chr - incor)` in `print_stats`, leaves that range a
  hundred times earlier than the counters; it is modelled with the 32-bit wrap
  of the compiled program (`wrap32`), and the theorems on the live line carry
  the bound under which it does not wrap.
* A C `double` and a C `float` are exact rationals: neither the rounding of the
  arithmetic nor that of the conversions `(float)chr` and `int` to `float` is
  modelled. Every statement on `apm`, `wpm` and `accuracy` is a statement under
  this assumption.
* The two `malloc`ed arrays are lists of `fsize + 1` bytes. A read outside a
  list yields `0` and a write outside it is dropped; the theorems on the loader
  and on the key stroke show that these writes are inside the arrays.
* Drawing (`redraw`, `addCharacter`, `move`, `refresh`, ...) has no effect on
  the variables of the program and is left out.
* The environment is explicit: the bytes of the file, what each call of
  `getch()` returns together with what `get_time()` and `getmaxyx` would
  return at that moment, and whether a signal arrives while `getch()` blocks.
-/

namespace Typing

/-- One C `char`, as its bit pattern. -/
abbrev Byte := Fin 256

/-- The value `EOF` of `<stdio.h>`. -/
def EOF : Int := -1

/-- The value `KEY_RESIZE` of `<ncurses.h>` (octal `0632`). -/
def KEY_RESIZE : Int := 410

/-- The conversion of an `int` to a `char`. -/
def toChar (ch : Int) : Byte := ⟨(ch % 256).toNat, by omega⟩

/-- The read `mem[i]`. -/
def peek (mem : List Byte) (i : Int) : Byte :=
  if 0 ≤ i then mem.getD i.toNat 0 else 0

/-- The assignment `mem[i] = ch`. -/
def poke (mem : List Byte) (i : Int) (ch : Int) : List Byte :=
  if 0 ≤ i then mem.set i.toNat (toChar ch) else mem

/-- The call `getc(desc)`: the next byte of the file as an `int`, or `EOF`. -/
def getc : List Byte → Int × List Byte
  | [] => (EOF, [])
  | b :: rest => ((b.val : Int), rest)

/-- The content of a C string: the bytes before the first NUL. -/
def cstr (mem : List Byte) : List Byte :=
  mem.takeWhile (fun b => b ≠ 0)

/-- The length of a C string, as `strlen` computes it. -/
def strlen (mem : List Byte) : Int :=
  ((cstr mem).length : Int)

/-! ## The loader (typing.c, lines 179 to 198) -/

/-- One turn of the read loop for the current `ch`, the increment `pos++` of the
`for` included: a newline, tab or carriage return runs `pos--; continue;`,
every other byte is stored at `buffer[pos]`. -/
def readBody (ch : Int) (pos : Int) (buffer : List Byte) : Int × List Byte :=
  if ch = 10 ∨ ch = 9 ∨ ch = 13 then
    (pos - 1 + 1, buffer)
  else
    (pos + 1, poke buffer pos ch)

/-- The loop `for (...; ch != EOF; ch = getc(desc), pos++)`, by recursion on what
is left of the file. -/
def readLoop : List Byte → Int → Int → List Byte → Int × List Byte
  | [], ch, pos, buffer =>
    if ch = EOF then (pos, buffer)
    else
      -- the next `getc` returns `EOF` and the loop ends
      readBody ch pos buffer
  | b :: rest, ch, pos, buffer =>
    if ch = EOF then (pos, buffer)
    else
      let r := readBody ch pos buffer
      readLoop rest (getc (b :: rest)).1 r.1 r.2

/-- The loader: `fsize` is the size of the file, both arrays get `fsize + 1`
zero bytes, `ch` starts as `10` and `pos` as `0`. The result is the final `pos`
and the array `buffer`. -/
def load (raw : List Byte) : Int × List Byte :=
  let fsize := raw.length
  readLoop raw 10 0 (List.replicate (fsize + 1) 0)

/-- The reference text of a session: `buffer` read as a C string, which is how
the typing loop and the drawing code read it. -/
def referenceText (raw : List Byte) : List Byte :=
  cstr (load raw).2

/-- Whether the loader drops this byte. -/
def stripped (b : Byte) : Bool :=
  b.val = 10 ∨ b.val = 9 ∨ b.val = 13

/-- Following the words of the specification: the input with every newline,
tab and carriage return removed, the other bytes in their order. -/
def sanitize (raw : List Byte) : List Byte :=
  raw.filter (fun b => !stripped b)

/-! ## The statistics (typing.c, lines 119 to 149) -/

/-- The struct `TypingStats`. -/
structure TypingStats where
  start_time : ℚ
  chr : Int
  wd : Int
  incor : Int
deriving DecidableEq, Repr

/-- What a statistics function computes: the local `wd` and the three numbers
it prints. -/
structure Report where
  wd : Int
  apm : ℚ
  wpm : ℚ
  accuracy : ℚ
deriving DecidableEq, Repr

/-- The value `INT_MAX` of `<limits.h>` for a 32-bit `int`. -/
def INT_MAX : Int := 2147483647

/-- The result of 32-bit `int` arithmetic in the compiled program: the exact
result reduced modulo `2^32` into `INT_MIN..INT_MAX`. -/
def wrap32 (n : Int) : Int :=
  (n + 2147483648) % 4294967296 - 2147483648

/-- The function `print_stats`; `now` is what `get_time()` returns. The product
`100 * (chr - incor)` is an `int` product (line 133), so it wraps at 32 bits,
and it is converted to `float` for the division by `(float)chr`; the floats are
taken as exact. -/
def print_stats (stats : TypingStats) (now : ℚ) : Report :=
  let time := now - stats.start_time
  let chr := stats.chr
  let incor := stats.incor
  let wd := Int.tdiv (chr - incor) 5
  { wd := wd
    apm := (chr : ℚ) / time * 60
    wpm := (wd : ℚ) / time * 60
    accuracy := ((wrap32 (100 * (chr - incor)) : Int) : ℚ) / (chr : ℚ) }

/-- The function `print_final_stats`; here the product is `100.0 * (chr - incor)`
(line 147), a product of doubles, which does not wrap; the divisor is
`(float)chr`. Doubles and floats are taken as exact. -/
def print_final_stats (stats : TypingStats) (now : ℚ) : Report :=
  let time := now - stats.start_time
  let chr := stats.chr
  let incor := stats.incor
  let wd := Int.tdiv (chr - incor) 5
  { wd := wd
    apm := (chr : ℚ) / time * 60
    wpm := (wd : ℚ) / time * 60
    accuracy := (100 : ℚ) * ((chr - incor : Int) : ℚ) / (chr : ℚ) }

/-- The variables of `typing` while the loop runs, and the global
`_current_stats`, which is either `NULL` or `&stats`. -/
structure Session where
  buffer : List Byte
  input : List Byte
  pos : Int
  spos : Int
  cpos : Int
  rows : Int
  columns : Int
  stats : TypingStats
  current_stats : Bool
deriving DecidableEq, Repr

/-- What the environment hands to one turn of the loop: the value `getch()`
returns, and what `get_time()` and `getmaxyx` return if that turn calls them. -/
structure Event where
  ch : Int
  time : ℚ
  rows : Int
  columns : Int
deriving DecidableEq, Repr

/-- The state before the loop (lines 200 to 206): `pos = spos = cpos = 0`,
`stats = {}`, the size of the window as `getmaxyx` reports it. -/
def init (buffer input : List Byte) (rows columns : Int) : Session :=
  { buffer := buffer
    input := input
    pos := 0
    spos := 0
    cpos := 0
    rows := rows
    columns := columns
    stats := { start_time := 0, chr := 0, wd := 0, incor := 0 }
    current_stats := false }

/-- The condition of the loop, `buffer[pos] != 0`. -/
def running (s : Session) : Bool :=
  decide (peek s.buffer s.pos ≠ 0)

/-- The session is completed when the loop condition fails. -/
def completed (s : Session) : Bool :=
  !running s

/-- The expression `columns / 2`, the division of C. -/
def half (columns : Int) : Int :=
  Int.tdiv columns 2

/-- Lines 226 to 229: on the first key press record the time and register the
statistics for the signal handler. -/
def stamp (s : Session) (now : ℚ) : Session :=
  if s.stats.start_time = 0 then
    { s with stats := { s.stats with start_time := now }, current_stats := true }
  else s

/-- The key after line 231: enter is treated as a space. -/
def canon (ch : Int) : Int :=
  if ch = 10 then 32 else ch

/-- Lines 234 to 236: the flag `wrong` for the key `ch`, the stroke recorded in
`input[pos]` and read back for the comparison with `buffer[pos]`. -/
def wrong (s : Session) (ch : Int) : Bool :=
  decide (peek (poke s.input s.pos (canon ch)) s.pos ≠ peek s.buffer s.pos)

/-- Lines 230 to 247: canonicalise the key, record it in `input[pos]`, compare
with `buffer[pos]`, then advance `pos` and `cpos` or count the stroke as wrong. -/
def advance (s : Session) (ch : Int) : Session :=
  let input := poke s.input s.pos (canon ch)
  if !wrong s ch then
    { s with input := input, pos := s.pos + 1, cpos := s.cpos + 1 }
  else
    { s with input := input, stats := { s.stats with incor := s.stats.incor + 1 } }

/-- Lines 250 to 254: past the middle of the screen, move the window. -/
def rebase (s : Session) : Session :=
  if s.cpos > half s.columns then
    { s with spos := s.spos + (s.cpos - half s.columns), cpos := half s.columns }
  else s

/-- Line 256: `stats.chr++`. -/
def count (s : Session) : Session :=
  { s with stats := { s.stats with chr := s.stats.chr + 1 } }

/-- One turn of the loop for a key that is not `KEY_RESIZE` (lines 226 to 263). -/
def keystroke (s : Session) (e : Event) : Session :=
  count (rebase (advance (stamp s e.time) e.ch))

/-- Lines 219 to 223: a resize reads the new size of the window and goes on. -/
def resize (s : Session) (e : Event) : Session :=
  { s with rows := e.rows, columns := e.columns }

/-- One turn of the loop body (lines 216 to 263). -/
def step (s : Session) (e : Event) : Session :=
  if e.ch = KEY_RESIZE then resize s e else keystroke s e

/-- The loop `while (buffer[pos] != 0)` fed with the events of the list: the
state when the loop has ended, or when it blocks in `getch()` because the list
is used up. -/
def run : Session → List Event → Session
  | s, [] => s
  | s, e :: es => if running s then run (step s e) es else s

/-! ## The program (typing.c, lines 151 to 283) -/

/-- What the program does to the outside, in order. -/
inductive Effect
  | endwin
  | stderr (msg : String)
  | final_stats (r : Report)
deriving DecidableEq, Repr

/-- How a function is left: by `exit(status)` (or the return of `main`), by a
return to its caller, or not at all because `getch()` blocks for good. -/
inductive Ending
  | exited (status : Int)
  | returned
  | blocked
deriving DecidableEq, Repr

/-- The behaviour of a call: its effects, how it ends, and the variables of the
typing loop if the loop was entered. -/
structure Outcome where
  effects : List Effect
  ending : Ending
  session : Option Session
deriving DecidableEq, Repr

/-- The environment of one invocation: what `fopen` returns (`none` for `NULL`),
the size of the window at the start, what the successive calls of `getch()`
return, whether a `SIGINT` or `SIGTERM` arrives while `getch()` blocks after
those events, and what `get_time()` returns when the final statistics are
computed. -/
structure World where
  file : Option (List Byte)
  rows : Int
  columns : Int
  events : List Event
  signal : Bool
  time : ℚ
deriving DecidableEq, Repr

def msg_descriptor : String := "File descriptor invalid. Did you give a valid filename?\n"

def msg_empty : String := "Given file is empty or invalid\n"

def msg_arguments : String := "Invalid arguments\n"

/-- The function `quit_error`: `endwin()`, the message on standard error,
`exit(0)`. It is called before the loop only. -/
def quit_error (err : String) : Outcome :=
  { effects := [Effect.endwin, Effect.stderr err]
    ending := Ending.exited 0
    session := none }

/-- The value of the pointer `_current_stats`: `NULL` or the statistics. -/
def registered (s : Session) : Option TypingStats :=
  if s.current_stats then some s.stats else none

/-- The function `handle_signal`, run while the loop is in state `s`:
`endwin()`, the final statistics if `_current_stats` is not `NULL`, `exit(0)`. -/
def handle_signal (s : Session) (now : ℚ) : Outcome :=
  { effects :=
      Effect.endwin ::
        (match registered s with
         | some stats => [Effect.final_stats (print_final_stats stats now)]
         | none => [])
    ending := Ending.exited 0
    session := some s }

/-- The state in which the loop is entered for a file with the bytes `raw`. -/
def start (raw : List Byte) (rows columns : Int) : Session :=
  init (load raw).2 (List.replicate (raw.length + 1) 0) rows columns

/-- The function `typing`. -/
def typing (desc : Option (List Byte)) (w : World) : Outcome :=
  match desc with
  | none => quit_error msg_descriptor
  | some raw =>
    let s0 := start raw w.rows w.columns
    if peek s0.buffer s0.pos = 0 then
      quit_error msg_empty
    else
      let s := run s0 w.events
      if running s then
        -- every event is used up and the loop waits in `getch()`
        if w.signal then handle_signal s w.time
        else { effects := [], ending := Ending.blocked, session := some s }
      else
        { effects := [Effect.endwin, Effect.final_stats (print_final_stats s.stats w.time)]
          ending := Ending.returned
          session := some { s with current_stats := false } }

/-- The function `main`: with `argc >= 2` it runs `typing` and, when that
returns, returns `1`; otherwise it prints a message and returns `0`. -/
def main (argc : Int) (w : World) : Outcome :=
  if argc ≥ 2 then
    let o := typing w.file w
    match o.ending with
    | Ending.returned => { o with ending := Ending.exited 1 }
    | _ => o
  else
    { effects := [Effect.stderr msg_arguments]
      ending := Ending.exited 0
      session := none }

/-- What relates the registration of the statistics to the counters while the
loop runs: `_current_stats` is set exactly when a key has been counted, and
whenever `start_time` is not zero. -/
def Registered (s : Session) : Prop :=
  (s.current_stats = true ↔ 1 ≤ s.stats.chr)
  ∧ (s.current_stats = false ↔ s.stats.chr = 0)
  ∧ (s.stats.start_time ≠ 0 → s.current_stats = true)

/-- The start time is set once the statistics are registered. -/
def Stamped (s : Session) : Prop :=
  s.current_stats = true → s.stats.start_time ≠ 0

/-! ## Lemmas on memory -/

theorem toChar_val (b : Byte) : toChar (b.val : Int) = b := by
  apply Fin.ext
  simp only [toChar]
  have := b.isLt
  omega

theorem stripped_iff (b : Byte) :
    stripped b = true ↔ ((b.val : Int) = 10 ∨ (b.val : Int) = 9 ∨ (b.val : Int) = 13) := by
  simp only [stripped, decide_eq_true_eq]
  omega

theorem poke_append_zeros (pre : List Byte) (k : Nat) (ch : Int) :
    poke (pre ++ List.replicate (k + 1) 0) (pre.length : Int) ch
      = pre ++ toChar ch :: List.replicate k 0 := by
  simp [poke, List.set_append, List.replicate_succ]

theorem takeWhile_append_zeros (xs : List Byte) (k : Nat) :
    cstr (xs ++ List.replicate (k + 1) 0) = cstr xs := by
  induction xs with
  | nil => simp [cstr, List.replicate_succ]
  | cons x xs ih =>
    simp only [cstr] at ih ⊢
    by_cases hx : x = 0
    · simp [hx]
    · simpa [List.takeWhile_cons, hx] using ih

theorem sanitize_cons (b : Byte) (raw : List Byte) :
    sanitize (b :: raw) = if stripped b then sanitize raw else b :: sanitize raw := by
  unfold sanitize
  cases h : stripped b <;> simp [List.filter_cons, h]

theorem length_sanitize_le (raw : List Byte) : (sanitize raw).length ≤ raw.length :=
  List.length_filter_le _ _

theorem readBody_spec (c : Byte) (pre : List Byte) (k : Nat)
    (hk : (sanitize [c]).length < k) :
    readBody (c.val : Int) (pre.length : Int) (pre ++ List.replicate k 0)
      = ((((pre ++ sanitize [c]).length : Nat) : Int),
          (pre ++ sanitize [c]) ++ List.replicate (k - (sanitize [c]).length) 0) := by
  unfold readBody
  by_cases hs : stripped c = true
  · have hs2 := (stripped_iff c).1 hs
    simp [sanitize_cons, hs, if_pos hs2, sanitize]
  · have hs2 : ¬ (((c.val : Int) = 10) ∨ ((c.val : Int) = 9) ∨ ((c.val : Int) = 13)) :=
      fun h => hs ((stripped_iff c).2 h)
    have hs3 : stripped c = false := by simpa using hs
    rw [if_neg hs2]
    have hk2 : 1 < k := by simpa [sanitize_cons, hs3, sanitize] using hk
    obtain ⟨j, rfl⟩ : ∃ j, k = j + 1 := ⟨k - 1, by omega⟩
    rw [poke_append_zeros, toChar_val]
    simp [sanitize_cons, hs3, sanitize]

theorem sanitize_cons_eq (c : Byte) (desc : List Byte) :
    sanitize (c :: desc) = sanitize [c] ++ sanitize desc := by
  unfold sanitize
  rw [← List.filter_append]
  rfl

theorem readLoop_spec (desc : List Byte) :
    ∀ (c : Byte) (pre : List Byte) (k : Nat), (sanitize (c :: desc)).length < k →
      readLoop desc (c.val : Int) (pre.length : Int) (pre ++ List.replicate k 0)
        = ((((pre ++ sanitize (c :: desc)).length : Nat) : Int),
            (pre ++ sanitize (c :: desc))
              ++ List.replicate (k - (sanitize (c :: desc)).length) 0) := by
  induction desc with
  | nil =>
    intro c pre k hk
    have hc : ¬ ((c.val : Int) = EOF) := by
      simp only [EOF]
      omega
    simp only [readLoop, if_neg hc]
    exact readBody_spec c pre k hk
  | cons b rest ih =>
    intro c pre k hk
    have hc : ¬ ((c.val : Int) = EOF) := by
      simp only [EOF]
      omega
    rw [sanitize_cons_eq c (b :: rest), List.length_append] at hk
    have h1 : (sanitize [c]).length < k := by omega
    simp only [readLoop, if_neg hc, getc]
    rw [readBody_spec c pre k h1]
    have h2 : (sanitize (b :: rest)).length < k - (sanitize [c]).length := by omega
    rw [ih b (pre ++ sanitize [c]) (k - (sanitize [c]).length) h2]
    rw [sanitize_cons_eq c (b :: rest), List.length_append, List.append_assoc pre,
      Nat.sub_sub]
    simp only [List.length_append, Nat.add_assoc]

theorem load_spec (raw : List Byte) :
    load raw = (((sanitize raw).length : Int),
      sanitize raw ++ List.replicate (raw.length + 1 - (sanitize raw).length) 0) := by
  have h10 : sanitize ((10 : Byte) :: raw) = sanitize raw := by
    rw [sanitize_cons]
    have : stripped (10 : Byte) = true := by decide
    simp [this]
  have h := readLoop_spec raw 10 [] (raw.length + 1)
    (by
      have := length_sanitize_le raw
      rw [h10]
      omega)
  rw [h10] at h
  simpa [load] using h

theorem referenceText_eq (raw : List Byte) : referenceText raw = cstr (sanitize raw) := by
  unfold referenceText
  rw [load_spec]
  have hle := length_sanitize_le raw
  obtain ⟨j, hj⟩ : ∃ j, raw.length + 1 - (sanitize raw).length = j + 1 :=
    ⟨raw.length - (sanitize raw).length, by omega⟩
  simp only [hj]
  exact takeWhile_append_zeros _ _

theorem length_sanitize (raw : List Byte) :
    (sanitize raw).length = raw.length - raw.countP (fun b => stripped b) := by
  have h := List.length_eq_countP_add_countP (fun b => stripped b) raw
  have h2 : (sanitize raw).length = raw.countP (fun b => !stripped b) := by
    unfold sanitize
    rw [List.countP_eq_length_filter]
  have h3 : raw.countP (fun b => !stripped b)
      = raw.countP (fun a => decide ¬ (stripped a = true)) := by
    congr 1
    funext a
    cases stripped a <;> simp
  omega

theorem mem_cstr_ne_zero (mem : List Byte) (b : Byte) (hb : b ∈ cstr mem) : b ≠ 0 := by
  have := List.mem_takeWhile_imp hb
  simpa using this

theorem cstr_subset (mem : List Byte) : cstr mem ⊆ mem :=
  List.takeWhile_subset _

theorem cstr_eq_self (mem : List Byte) (h : ∀ b ∈ mem, b ≠ 0) : cstr mem = mem := by
  unfold cstr
  rw [List.takeWhile_eq_self_iff]
  intro x hx
  simpa using h x hx

theorem mem_sanitize (raw : List Byte) (b : Byte) :
    b ∈ sanitize raw ↔ b ∈ raw ∧ stripped b = false := by
  simp [sanitize]

theorem sanitize_idem (raw : List Byte) : sanitize (sanitize raw) = sanitize raw := by
  unfold sanitize
  rw [List.filter_filter]
  congr 1
  funext b
  cases stripped b <;> rfl

theorem mem_referenceText (raw : List Byte) (b : Byte) (hb : b ∈ referenceText raw) :
    b ∈ raw ∧ stripped b = false ∧ b ≠ 0 := by
  rw [referenceText_eq] at hb
  have h1 := (mem_sanitize raw b).1 (cstr_subset _ hb)
  exact ⟨h1.1, h1.2, mem_cstr_ne_zero _ b hb⟩

theorem referenceText_idem (raw : List Byte) :
    referenceText (referenceText raw) = referenceText raw := by
  have h1 : sanitize (referenceText raw) = referenceText raw := by
    unfold sanitize
    rw [List.filter_eq_self]
    intro b hb
    simp [(mem_referenceText raw b hb).2.1]
  rw [referenceText_eq (referenceText raw), h1]
  exact cstr_eq_self _ (fun b hb => (mem_referenceText raw b hb).2.2)

/-- C5, as amended. For every byte sequence read from the file, the bytes that
the loader stores in `buffer` are exactly the input with every newline, tab and
carriage return removed and the other bytes kept in their order, followed by
zero bytes up to `fsize + 1`; their number is the length of the input minus the
number of those three bytes. The reference text that the session uses is that
sequence up to its first NUL byte: for an input without a NUL byte it is
exactly the stripped input, with that length. Stripping twice equals stripping
once, for the stripped sequence and for the reference text. -/
theorem load_sanitizes (raw : List Byte) :
    (load raw).2 = sanitize raw ++ List.replicate (raw.length + 1 - (sanitize raw).length) 0
    ∧ (load raw).1 = ((sanitize raw).length : Int)
    ∧ (sanitize raw).length = raw.length - raw.countP (fun b => stripped b)
    ∧ referenceText raw = cstr (sanitize raw)
    ∧ ((∀ b ∈ raw, b ≠ 0) →
        referenceText raw = sanitize raw
        ∧ (referenceText raw).length = raw.length - raw.countP (fun b => stripped b))
    ∧ sanitize (sanitize raw) = sanitize raw
    ∧ referenceText (sanitize raw) = referenceText raw
    ∧ referenceText (referenceText raw) = referenceText raw := by
  have hns : (∀ b ∈ raw, b ≠ 0) → referenceText raw = sanitize raw := by
    intro h
    rw [referenceText_eq]
    exact cstr_eq_self _ (fun b hb => h b ((mem_sanitize raw b).1 hb).1)
  refine ⟨by rw [load_spec], by rw [load_spec], length_sanitize raw, referenceText_eq raw,
    ?_, sanitize_idem raw, ?_, referenceText_idem raw⟩
  · intro h
    refine ⟨hns h, ?_⟩
    rw [hns h]
    exact length_sanitize raw
  · rw [referenceText_eq, referenceText_eq, sanitize_idem]

/-- C5, a witness: the file `"a\nb\tc\r"` has no NUL byte and its reference text
is `"abc"`. -/
theorem load_sanitizes_witness :
    referenceText [97, 10, 98, 9, 99, 13] = sanitize [97, 10, 98, 9, 99, 13]
    ∧ (referenceText [97, 10, 98, 9, 99, 13]).length
        = [(97 : Byte), 10, 98, 9, 99, 13].length
          - [(97 : Byte), 10, 98, 9, 99, 13].countP (fun b => stripped b) :=
  (load_sanitizes [97, 10, 98, 9, 99, 13]).2.2.2.2.1 (by simp)

/-- C5, the counterexample: for the file with the three bytes `'a'`, NUL, `'b'`
nothing is stripped, yet the reference text of the session is `"a"`, of length
1 and not 3. -/
theorem load_nul_counterexample :
    sanitize [97, 0, 98] = [97, 0, 98]
    ∧ referenceText [97, 0, 98] = [97]
    ∧ referenceText [97, 0, 98] ≠ sanitize [97, 0, 98]
    ∧ (referenceText [97, 0, 98]).length
        ≠ [(97 : Byte), 0, 98].length - [(97 : Byte), 0, 98].countP (fun b => stripped b) := by
  decide

/-! ## Lemmas on one turn of the loop -/

theorem wrong_stamp (s : Session) (now : ℚ) (ch : Int) :
    wrong (stamp s now) ch = wrong s ch := by
  unfold stamp wrong
  split <;> rfl

theorem stamp_fields (s : Session) (now : ℚ) :
    (stamp s now).buffer = s.buffer ∧ (stamp s now).input = s.input
    ∧ (stamp s now).pos = s.pos ∧ (stamp s now).spos = s.spos
    ∧ (stamp s now).cpos = s.cpos ∧ (stamp s now).columns = s.columns
    ∧ (stamp s now).rows = s.rows
    ∧ (stamp s now).stats.chr = s.stats.chr ∧ (stamp s now).stats.incor = s.stats.incor := by
  unfold stamp
  split <;> simp

theorem advance_fields (s : Session) (ch : Int) :
    (advance s ch).buffer = s.buffer
    ∧ (advance s ch).input = poke s.input s.pos (canon ch)
    ∧ (advance s ch).pos = (if wrong s ch then s.pos else s.pos + 1)
    ∧ (advance s ch).spos = s.spos
    ∧ (advance s ch).cpos = (if wrong s ch then s.cpos else s.cpos + 1)
    ∧ (advance s ch).columns = s.columns
    ∧ (advance s ch).rows = s.rows
    ∧ (advance s ch).stats.chr = s.stats.chr
    ∧ (advance s ch).stats.incor
        = (if wrong s ch then s.stats.incor + 1 else s.stats.incor)
    ∧ (advance s ch).stats.start_time = s.stats.start_time
    ∧ (advance s ch).current_stats = s.current_stats := by
  unfold advance
  cases h : wrong s ch <;> simp

theorem rebase_fields (s : Session) :
    (rebase s).buffer = s.buffer ∧ (rebase s).input = s.input
    ∧ (rebase s).pos = s.pos
    ∧ (rebase s).spos
        = (if s.cpos > half s.columns then s.spos + (s.cpos - half s.columns) else s.spos)
    ∧ (rebase s).cpos = (if s.cpos > half s.columns then half s.columns else s.cpos)
    ∧ (rebase s).columns = s.columns ∧ (rebase s).rows = s.rows
    ∧ (rebase s).stats = s.stats ∧ (rebase s).current_stats = s.current_stats := by
  unfold rebase
  split <;> simp [*]

theorem count_fields (s : Session) :
    (count s).buffer = s.buffer ∧ (count s).input = s.input
    ∧ (count s).pos = s.pos ∧ (count s).spos = s.spos ∧ (count s).cpos = s.cpos
    ∧ (count s).columns = s.columns ∧ (count s).rows = s.rows
    ∧ (count s).stats.chr = s.stats.chr + 1 ∧ (count s).stats.incor = s.stats.incor
    ∧ (count s).stats.start_time = s.stats.start_time
    ∧ (count s).current_stats = s.current_stats := by
  simp [count]

/-- The variables after one key that is not a resize, in terms of the state
before it. -/
theorem keystroke_fields (s : Session) (e : Event) :
    (keystroke s e).buffer = s.buffer
    ∧ (keystroke s e).input = poke s.input s.pos (canon e.ch)
    ∧ (keystroke s e).pos = (if wrong s e.ch then s.pos else s.pos + 1)
    ∧ (advance (stamp s e.time) e.ch).spos = s.spos
    ∧ (advance (stamp s e.time) e.ch).cpos = (if wrong s e.ch then s.cpos else s.cpos + 1)
    ∧ (keystroke s e).spos
        = (if (advance (stamp s e.time) e.ch).cpos > half s.columns then
            s.spos + ((advance (stamp s e.time) e.ch).cpos - half s.columns)
          else s.spos)
    ∧ (keystroke s e).cpos
        = (if (advance (stamp s e.time) e.ch).cpos > half s.columns then half s.columns
          else (advance (stamp s e.time) e.ch).cpos)
    ∧ (keystroke s e).columns = s.columns
    ∧ (keystroke s e).stats.chr = s.stats.chr + 1
    ∧ (keystroke s e).stats.incor
        = (if wrong s e.ch then s.stats.incor + 1 else s.stats.incor) := by
  obtain ⟨h1, h2, h3, h4, h5, h6, -, h8, h9⟩ := stamp_fields s e.time
  obtain ⟨a1, a2, a3, a4, a5, a6, -, a8, a9, -, -⟩ := advance_fields (stamp s e.time) e.ch
  obtain ⟨r1, r2, r3, r4, r5, r6, -, r8, -⟩ := rebase_fields (advance (stamp s e.time) e.ch)
  obtain ⟨c1, c2, c3, c4, c5, c6, -, c8, c9, -, -⟩ :=
    count_fields (rebase (advance (stamp s e.time) e.ch))
  rw [wrong_stamp] at a3 a5 a9
  unfold keystroke
  refine ⟨?_, ?_, ?_, ?_, ?_, ?_, ?_, ?_, ?_, ?_⟩
  · rw [c1, r1, a1, h1]
  · rw [c2, r2, a2, h2, h3]
  · rw [c3, r3, a3, h3]
  · rw [a4, h4]
  · rw [a5, h5]
  · rw [c4, r4, a6, h6, a4, h4]
  · rw [c5, r5, a6, h6]
  · rw [c6, r6, a6, h6]
  · rw [c8, r8, a8, h8]
  · rw [c9, r8, a9, h9]

theorem resize_fields (s : Session) (e : Event) :
    (resize s e).buffer = s.buffer ∧ (resize s e).input = s.input
    ∧ (resize s e).pos = s.pos ∧ (resize s e).spos = s.spos ∧ (resize s e).cpos = s.cpos
    ∧ (resize s e).stats = s.stats ∧ (resize s e).current_stats = s.current_stats
    ∧ (resize s e).columns = e.columns ∧ (resize s e).rows = e.rows := by
  simp [resize]

theorem keystroke_mirror (s : Session) (e : Event) (h : s.pos - s.spos = s.cpos) :
    (keystroke s e).pos - (keystroke s e).spos = (keystroke s e).cpos := by
  obtain ⟨-, -, k3, -, k5, k6, k7, -, -, -⟩ := keystroke_fields s e
  rw [k3, k6, k7, k5]
  cases wrong s e.ch <;> simp <;> split <;> omega

theorem step_mirror (s : Session) (e : Event) (h : s.pos - s.spos = s.cpos) :
    (step s e).pos - (step s e).spos = (step s e).cpos := by
  unfold step
  split
  · obtain ⟨-, -, r3, r4, r5, -⟩ := resize_fields s e
    rw [r3, r4, r5]
    exact h
  · exact keystroke_mirror s e h

theorem run_mirror (es : List Event) :
    ∀ s : Session, s.pos - s.spos = s.cpos →
      (run s es).pos - (run s es).spos = (run s es).cpos := by
  induction es with
  | nil => intro s h; exact h
  | cons e es ih =>
    intro s h
    simp only [run]
    split
    · exact ih (step s e) (step_mirror s e h)
    · exact h

theorem run_append (es₁ es₂ : List Event) :
    ∀ s : Session, run s (es₁ ++ es₂) = run (run s es₁) es₂ := by
  induction es₁ with
  | nil => intro s; rfl
  | cons e es ih =>
    intro s
    simp only [List.cons_append, run]
    split
    · exact ih (step s e)
    · rename_i hr
      cases es₂ with
      | nil => rfl
      | cons e₂ es₂ => simp only [run, if_neg hr]

theorem half_of_nonneg (W : Int) (h : 0 ≤ W) : half W = W / 2 := by
  unfold half
  exact Int.tdiv_eq_ediv h (by decide)

/-- C2. Mirror invariant: from the initial state (`pos = spos = cpos = 0`), for
every reference buffer, every size of the window and every finite sequence of
input events (any key, right or wrong, and resize events that set the width to
any value), the state in which the loop waits for the next event, or in which
it has ended, satisfies `pos - spos = cpos`. -/
theorem mirror_invariant (buffer input : List Byte) (rows columns : Int)
    (events : List Event) :
    (run (init buffer input rows columns) events).pos
        - (run (init buffer input rows columns) events).spos
      = (run (init buffer input rows columns) events).cpos :=
  run_mirror events (init buffer input rows columns) (by simp [init])

/-- C4. Scroll rebase: for every width `W` of the terminal and every state with
`pos - spos = cpos`, after a key is processed `cpos <= W / 2`; if the column
reached by the match or mismatch step exceeds `W / 2` then `spos` grows by
exactly the excess and `cpos` becomes `W / 2`, otherwise `spos` and `cpos` are
left as that step produced them; and `pos - spos = cpos` holds in the new
state. Here `W / 2` is the division of C, which for `0 <= W` is the integer
half. -/
theorem scroll_rebase (W : Int) (s : Session) (e : Event)
    (hkey : e.ch ≠ KEY_RESIZE) (hW : s.columns = W) (hmirror : s.pos - s.spos = s.cpos) :
    (step s e).cpos ≤ half W
    ∧ ((advance (stamp s e.time) e.ch).cpos > half W →
        (step s e).spos = s.spos + ((advance (stamp s e.time) e.ch).cpos - half W)
        ∧ (step s e).cpos = half W)
    ∧ (¬ (advance (stamp s e.time) e.ch).cpos > half W →
        (step s e).spos = (advance (stamp s e.time) e.ch).spos
        ∧ (step s e).cpos = (advance (stamp s e.time) e.ch).cpos)
    ∧ (advance (stamp s e.time) e.ch).spos = s.spos
    ∧ (step s e).pos - (step s e).spos = (step s e).cpos
    ∧ (step s e).columns = W
    ∧ (0 ≤ W → half W = W / 2) := by
  have hm := step_mirror s e hmirror
  have hstep : step s e = keystroke s e := by
    unfold step
    rw [if_neg hkey]
  rw [hstep] at hm ⊢
  obtain ⟨-, -, -, k4, -, k6, k7, k8, -, -⟩ := keystroke_fields s e
  rw [hW] at k6 k7 k8
  refine ⟨?_, ?_, ?_, k4, hm, k8, half_of_nonneg W⟩
  · rw [k7]
    split <;> omega
  · intro h
    rw [k6, k7, if_pos h, if_pos h]
    exact ⟨rfl, rfl⟩
  · intro h
    rw [k6, k7, if_neg h, if_neg h, k4]
    exact ⟨rfl, rfl⟩

theorem step_monotonic (s : Session) (e : Event) :
    s.pos ≤ (step s e).pos ∧ s.spos ≤ (step s e).spos
    ∧ ((step s e).pos = s.pos
        ∨ ((step s e).pos = s.pos + 1 ∧ e.ch ≠ KEY_RESIZE ∧ wrong s e.ch = false))
    ∧ ((step s e).spos ≠ s.spos →
        e.ch ≠ KEY_RESIZE
        ∧ (advance (stamp s e.time) e.ch).cpos > half s.columns
        ∧ (step s e).spos
            = s.spos + ((advance (stamp s e.time) e.ch).cpos - half s.columns)) := by
  unfold step
  by_cases hk : e.ch = KEY_RESIZE
  · obtain ⟨-, -, r3, r4, -⟩ := resize_fields s e
    rw [if_pos hk, r3, r4]
    simp
  · obtain ⟨-, -, k3, -, -, k6, -⟩ := keystroke_fields s e
    rw [if_neg hk, k3, k6]
    refine ⟨?_, ?_, ?_, ?_⟩
    · split <;> omega
    · split <;> omega
    · cases wrong s e.ch <;> simp [hk]
    · intro h
      by_cases hc : (advance (stamp s e.time) e.ch).cpos > half s.columns
      · rw [if_pos hc]
        exact ⟨hk, hc, rfl⟩
      · rw [if_neg hc] at h
        exact absurd rfl h

theorem run_monotonic (es : List Event) :
    ∀ s : Session, s.pos ≤ (run s es).pos ∧ s.spos ≤ (run s es).spos := by
  induction es with
  | nil => intro s; exact ⟨le_refl _, le_refl _⟩
  | cons e es ih =>
    intro s
    simp only [run]
    split
    · have h1 := step_monotonic s e
      have h2 := ih (step s e)
      exact ⟨le_trans h1.1 h2.1, le_trans h1.2.1 h2.2⟩
    · exact ⟨le_refl _, le_refl _⟩

/-- C6. Monotonic positions: for every state `s` of the loop (the initial state
of any reference text among them) and every sequence of events, keys and
resizes to any width, the state after one more event has `pos` and `spos` not
smaller than before; `pos` is unchanged or grows by exactly 1, and grows only
when the event is a key that the loop, still running, found not wrong; `spos`
changes only when the event is a key whose match or mismatch step left `cpos`
above half the width, that is in the rebase step. Over any number of further
events `pos` and `spos` do not decrease either. -/
theorem positions_monotonic (s : Session) (es : List Event) (e : Event) (more : List Event) :
    (run s es).pos ≤ (run s (es ++ [e])).pos
    ∧ (run s es).spos ≤ (run s (es ++ [e])).spos
    ∧ ((run s (es ++ [e])).pos = (run s es).pos
        ∨ ((run s (es ++ [e])).pos = (run s es).pos + 1
            ∧ e.ch ≠ KEY_RESIZE ∧ running (run s es) = true
            ∧ wrong (run s es) e.ch = false))
    ∧ ((run s (es ++ [e])).spos ≠ (run s es).spos →
        e.ch ≠ KEY_RESIZE ∧ running (run s es) = true
        ∧ (advance (stamp (run s es) e.time) e.ch).cpos > half (run s es).columns
        ∧ (run s (es ++ [e])).spos
            = (run s es).spos
              + ((advance (stamp (run s es) e.time) e.ch).cpos - half (run s es).columns))
    ∧ (run s es).pos ≤ (run s (es ++ more)).pos
    ∧ (run s es).spos ≤ (run s (es ++ more)).spos := by
  rw [run_append es [e] s, run_append es more s]
  generalize run s es = a
  have hmore := run_monotonic more a
  have hb : run a [e] = if running a = true then step a e else a := rfl
  rw [hb]
  by_cases hr : running a = true
  · rw [if_pos hr]
    refine ⟨(step_monotonic a e).1, (step_monotonic a e).2.1, ?_, ?_, hmore.1, hmore.2⟩
    · rcases (step_monotonic a e).2.2.1 with h | ⟨h1, h2, h3⟩
      · exact Or.inl h
      · exact Or.inr ⟨h1, h2, hr, h3⟩
    · intro h
      obtain ⟨h1, h2, h3⟩ := (step_monotonic a e).2.2.2 h
      exact ⟨h1, hr, h2, h3⟩
  · rw [if_neg hr]
    exact ⟨le_refl _, le_refl _, Or.inl rfl, fun h => absurd rfl h, hmore.1, hmore.2⟩

/-! ## Lemmas on reads and writes of the arrays -/

theorem val_toChar (c : Int) (h0 : 0 ≤ c) (h : c < 256) : ((toChar c).val : Int) = c := by
  simp only [toChar]
  omega

theorem peek_poke_same (mem : List Byte) (i : Int) (ch : Int)
    (h0 : 0 ≤ i) (h : i.toNat < mem.length) : peek (poke mem i ch) i = toChar ch := by
  simp [peek, poke, h0, List.getD_eq_getElem?_getD, h]

theorem peek_poke_other (mem : List Byte) (i j : Int) (ch : Int) (hij : j ≠ i) :
    peek (poke mem i ch) j = peek mem j := by
  unfold peek poke
  by_cases hj : 0 ≤ j
  · by_cases hi : 0 ≤ i
    · have hne : i.toNat ≠ j.toNat := by omega
      simp [hi, hj, List.getD_eq_getElem?_getD, List.getElem?_set_ne hne]
    · simp [hi]
  · simp [hj]

theorem length_poke (mem : List Byte) (i : Int) (ch : Int) :
    (poke mem i ch).length = mem.length := by
  unfold poke
  split <;> simp

theorem length_cstr_le (mem : List Byte) : (cstr mem).length ≤ mem.length :=
  (List.takeWhile_sublist _).length_le

theorem getD_cstr (mem : List Byte) : ∀ n : Nat, n < (cstr mem).length →
    mem.getD n 0 ≠ 0 ∧ (cstr mem).getD n 0 = mem.getD n 0 := by
  induction mem with
  | nil => intro n hn; simp [cstr] at hn
  | cons x xs ih =>
    intro n hn
    by_cases hx : x = 0
    · simp [cstr, hx] at hn
    · have hc : cstr (x :: xs) = x :: cstr xs := by simp [cstr, List.takeWhile_cons, hx]
      rw [hc] at hn ⊢
      cases n with
      | zero => simpa using hx
      | succ n =>
        have := ih n (by simpa using hn)
        simpa using this

theorem getD_length_cstr (mem : List Byte) : mem.getD (cstr mem).length 0 = 0 := by
  induction mem with
  | nil => simp [cstr]
  | cons x xs ih =>
    by_cases hx : x = 0
    · simp [cstr, hx]
    · have hc : cstr (x :: xs) = x :: cstr xs := by simp [cstr, List.takeWhile_cons, hx]
      rw [hc]
      simpa using ih

theorem peek_of_lt_strlen (mem : List Byte) (i : Int) (h0 : 0 ≤ i) (h : i < strlen mem) :
    peek mem i ≠ 0 ∧ i.toNat < mem.length := by
  have hn : i.toNat < (cstr mem).length := by
    unfold strlen at h
    omega
  have hle := length_cstr_le mem
  refine ⟨?_, by omega⟩
  simp only [peek, if_pos h0]
  exact (getD_cstr mem i.toNat hn).1

theorem peek_strlen (mem : List Byte) : peek mem (strlen mem) = 0 := by
  unfold peek strlen
  simp only [Int.toNat_ofNat, Int.natCast_nonneg, if_true]
  exact getD_length_cstr mem

/-! ## The keystroke step -/

theorem wrong_iff (s : Session) (ch : Int) (h0 : 0 ≤ s.pos)
    (h : s.pos.toNat < s.input.length) :
    wrong s ch = true ↔ toChar (canon ch) ≠ peek s.buffer s.pos := by
  unfold wrong
  rw [peek_poke_same s.input s.pos (canon ch) h0 h]
  simp

theorem step_of_key (s : Session) (e : Event) (h : e.ch ≠ KEY_RESIZE) :
    step s e = keystroke s e := by
  unfold step
  rw [if_neg h]

/-- C1. Keystroke step: for every state with `0 <= pos < len(ReferenceText)`
whose input array has the size of the reference array, and every typed
character `c` (a value in `0..255`), let `c1` be a space if `c` is the enter
character and `c` otherwise. The step records `c1` in the input log at index
`pos`, inside the array, and changes no other slot. If `c1` equals the
reference character at `pos`, then `pos` and `cpos` (before any rebase) each
grow by exactly 1 and `incor` is unchanged; otherwise `pos` and `cpos` are
unchanged and `incor` grows by exactly 1; `chr` grows by exactly 1 in both
cases. In particular enter against a reference space is correct, and for the
file `"a"` with the keys `'b'` then `'a'` the state is `pos 0`, `incor 1`,
`chr 1`, not completed, and then `pos 1`, `incor 1`, `chr 2`, completed. -/
theorem keystroke_step (s : Session) (e : Event)
    (hpos : 0 ≤ s.pos) (hlen : s.pos < strlen s.buffer)
    (hsize : s.input.length = s.buffer.length)
    (hc0 : 0 ≤ e.ch) (hc : e.ch < 256) :
    canon e.ch = (if e.ch = 10 then 32 else e.ch)
    ∧ ((toChar (canon e.ch)).val : Int) = canon e.ch
    ∧ step s e = count (rebase (advance (stamp s e.time) e.ch))
    ∧ s.pos.toNat < s.input.length
    ∧ (step s e).input = s.input.set s.pos.toNat (toChar (canon e.ch))
    ∧ peek (step s e).input s.pos = toChar (canon e.ch)
    ∧ (∀ i : Int, i ≠ s.pos → peek (step s e).input i = peek s.input i)
    ∧ (toChar (canon e.ch) = peek s.buffer s.pos →
        (step s e).pos = s.pos + 1
        ∧ (advance (stamp s e.time) e.ch).cpos = s.cpos + 1
        ∧ (step s e).stats.incor = s.stats.incor)
    ∧ (toChar (canon e.ch) ≠ peek s.buffer s.pos →
        (step s e).pos = s.pos
        ∧ (advance (stamp s e.time) e.ch).cpos = s.cpos
        ∧ (step s e).stats.incor = s.stats.incor + 1)
    ∧ (step s e).stats.chr = s.stats.chr + 1
    ∧ (e.ch = 10 → peek s.buffer s.pos = 32 →
        (step s e).pos = s.pos + 1 ∧ (step s e).stats.incor = s.stats.incor)
    ∧ (referenceText [97] = [97]
        ∧ (run (start [97] 24 80) [⟨98, 1, 24, 80⟩]).pos = 0
        ∧ (run (start [97] 24 80) [⟨98, 1, 24, 80⟩]).stats.incor = 1
        ∧ (run (start [97] 24 80) [⟨98, 1, 24, 80⟩]).stats.chr = 1
        ∧ completed (run (start [97] 24 80) [⟨98, 1, 24, 80⟩]) = false
        ∧ (run (start [97] 24 80) [⟨98, 1, 24, 80⟩, ⟨97, 2, 24, 80⟩]).pos = 1
        ∧ (run (start [97] 24 80) [⟨98, 1, 24, 80⟩, ⟨97, 2, 24, 80⟩]).stats.incor = 1
        ∧ (run (start [97] 24 80) [⟨98, 1, 24, 80⟩, ⟨97, 2, 24, 80⟩]).stats.chr = 2
        ∧ completed (run (start [97] 24 80) [⟨98, 1, 24, 80⟩, ⟨97, 2, 24, 80⟩]) = true) := by
  have hkey : e.ch ≠ KEY_RESIZE := by
    simp only [KEY_RESIZE]
    omega
  have hin : s.pos.toNat < s.input.length := by
    rw [hsize]
    exact (peek_of_lt_strlen s.buffer s.pos hpos hlen).2
  have hcanon0 : 0 ≤ canon e.ch := by
    unfold canon
    split <;> omega
  have hcanon : canon e.ch < 256 := by
    unfold canon
    split <;> omega
  obtain ⟨-, k2, k3, -, k5, -, -, -, k9, k10⟩ := keystroke_fields s e
  have hw := wrong_iff s e.ch hpos hin
  rw [step_of_key s e hkey]
  have hright : toChar (canon e.ch) = peek s.buffer s.pos →
      (keystroke s e).pos = s.pos + 1
      ∧ (advance (stamp s e.time) e.ch).cpos = s.cpos + 1
      ∧ (keystroke s e).stats.incor = s.stats.incor := by
    intro h
    have hf : wrong s e.ch = false := by
      cases hwv : wrong s e.ch
      · rfl
      · exact absurd h (hw.1 hwv)
    rw [k3, k5, k10, hf]
    simp
  refine ⟨rfl, val_toChar _ hcanon0 hcanon, rfl, hin, ?_, ?_, ?_, hright, ?_, k9, ?_, ?_⟩
  · rw [k2]
    simp [poke, hpos]
  · rw [k2]
    exact peek_poke_same s.input s.pos _ hpos hin
  · intro i hi
    rw [k2]
    exact peek_poke_other s.input s.pos i _ hi
  · intro h
    have ht : wrong s e.ch = true := hw.2 h
    rw [k3, k5, k10, ht]
    simp
  · intro h10 h32
    have : toChar (canon e.ch) = peek s.buffer s.pos := by
      rw [h32, h10]
      decide
    exact ⟨(hright this).1, (hright this).2.2⟩
  · decide

/-! ## Runs of the loop -/

theorem step_buffer (s : Session) (e : Event) : (step s e).buffer = s.buffer := by
  unfold step
  split
  · exact (resize_fields s e).1
  · exact (keystroke_fields s e).1

theorem step_input_length (s : Session) (e : Event) :
    (step s e).input.length = s.input.length := by
  unfold step
  split
  · rw [(resize_fields s e).2.1]
  · rw [(keystroke_fields s e).2.1, length_poke]

theorem run_buffer (es : List Event) : ∀ s : Session, (run s es).buffer = s.buffer := by
  induction es with
  | nil => intro s; rfl
  | cons e es ih =>
    intro s
    simp only [run]
    split
    · rw [ih, step_buffer]
    · rfl

theorem running_iff (s : Session) (h0 : 0 ≤ s.pos) (h : s.pos ≤ strlen s.buffer) :
    running s = true ↔ s.pos < strlen s.buffer := by
  unfold running
  constructor
  · intro hr
    rcases lt_or_eq_of_le h with hlt | heq
    · exact hlt
    · rw [heq, peek_strlen] at hr
      simp at hr
  · intro hlt
    simpa using (peek_of_lt_strlen s.buffer s.pos h0 hlt).1

theorem run_pos_bounds (es : List Event) :
    ∀ s : Session, 0 ≤ s.pos → s.pos ≤ strlen s.buffer →
      0 ≤ (run s es).pos ∧ (run s es).pos ≤ strlen s.buffer := by
  induction es with
  | nil => intro s h0 h; exact ⟨h0, h⟩
  | cons e es ih =>
    intro s h0 h
    simp only [run]
    split
    · rename_i hr
      have hlt := (running_iff s h0 h).1 hr
      have hm := step_monotonic s e
      have hb := step_buffer s e
      have h1 : 0 ≤ (step s e).pos := le_trans h0 hm.1
      have h2 : (step s e).pos ≤ strlen (step s e).buffer := by
        rw [hb]
        rcases hm.2.2.1 with h | h
        · omega
        · omega
      have := ih (step s e) h1 h2
      rw [hb] at this
      exact this
    · exact ⟨h0, h⟩

theorem completed_iff_of_bounds (s : Session) (h0 : 0 ≤ s.pos)
    (h : s.pos ≤ strlen s.buffer) : completed s = true ↔ s.pos = strlen s.buffer := by
  have hr := running_iff s h0 h
  unfold completed
  cases hv : running s
  · have : ¬ s.pos < strlen s.buffer := fun hlt => by
      have := hr.2 hlt
      rw [hv] at this
      exact Bool.false_ne_true this
    simp
    omega
  · have := hr.1 hv
    simp
    omega

theorem start_fields (raw : List Byte) (rows columns : Int) :
    (start raw rows columns).buffer = (load raw).2
    ∧ (start raw rows columns).input.length = (start raw rows columns).buffer.length
    ∧ (start raw rows columns).pos = 0
    ∧ (start raw rows columns).stats.chr = 0
    ∧ (start raw rows columns).stats.incor = 0
    ∧ strlen (start raw rows columns).buffer = ((referenceText raw).length : Int)
    ∧ cstr (start raw rows columns).buffer = referenceText raw := by
  refine ⟨rfl, ?_, rfl, rfl, rfl, rfl, rfl⟩
  have hle := length_sanitize_le raw
  simp only [start, init, load_spec, List.length_append, List.length_replicate]
  omega

/-- Typing the characters `bs` that stand in the reference text at `pos`: every
one of them advances the session. -/
theorem run_right (bs : List Byte) :
    ∀ (es : List Event) (s : Session) (pre post : List Byte),
      0 ≤ s.pos → s.input.length = s.buffer.length →
      es.map Event.ch = bs.map (fun b => (b.val : Int)) →
      (∀ b ∈ bs, stripped b = false) →
      cstr s.buffer = pre ++ bs ++ post → (pre.length : Int) = s.pos →
      (run s es).pos = s.pos + (bs.length : Int)
      ∧ (run s es).stats.chr = s.stats.chr + (bs.length : Int)
      ∧ (run s es).stats.incor = s.stats.incor := by
  induction bs with
  | nil =>
    intro es s pre post _ _ hes _ _ _
    have : es = [] := by simpa using hes
    subst this
    simp [run]
  | cons b bs ih =>
    intro es s pre post h0 hsize hes hstr hcstr hpre
    cases es with
    | nil => simp at hes
    | cons e es =>
      simp only [List.map_cons, List.cons.injEq] at hes
      obtain ⟨he, hes⟩ := hes
      have hb : stripped b = false := hstr b (List.mem_cons_self _ _)
      have hbv := b.isLt
      have hlen : s.pos < strlen s.buffer := by
        unfold strlen
        rw [hcstr]
        simp only [List.length_append, List.length_cons]
        omega
      have hin := peek_of_lt_strlen s.buffer s.pos h0 hlen
      have hpeek : peek s.buffer s.pos = b := by
        have hn : s.pos.toNat < (cstr s.buffer).length := by
          unfold strlen at hlen
          omega
        have h1 := (getD_cstr s.buffer s.pos.toNat hn).2
        simp only [peek, if_pos h0]
        rw [← h1, hcstr]
        have hp : s.pos.toNat = pre.length := by omega
        rw [hp, List.getD_eq_getElem?_getD, List.append_assoc,
          List.getElem?_append_right (le_refl _)]
        simp
      have hcanon : canon e.ch = (b.val : Int) := by
        unfold canon
        have hne : ¬ (e.ch = 10) := by
          intro h10
          have : stripped b = true := (stripped_iff b).2 (Or.inl (by rw [← he, h10]))
          rw [hb] at this
          exact Bool.false_ne_true this
        rw [if_neg hne, he]
      have hkey : e.ch ≠ KEY_RESIZE := by
        simp only [KEY_RESIZE]
        omega
      have hw : wrong s e.ch = false := by
        cases hwv : wrong s e.ch
        · rfl
        · have := (wrong_iff s e.ch h0 (by rw [hsize]; exact hin.2)).1 hwv
          rw [hcanon, toChar_val, hpeek] at this
          exact absurd rfl this
      have hr : running s = true := (running_iff s h0 (le_of_lt hlen)).2 hlen
      obtain ⟨k1, -, k3, -, -, -, -, -, k9, k10⟩ := keystroke_fields s e
      rw [hw] at k3 k10
      simp only [Bool.false_eq_true, if_false] at k3 k10
      simp only [run, hr, if_true, step_of_key s e hkey]
      have hs1 : (keystroke s e).input.length = (keystroke s e).buffer.length := by
        rw [← step_of_key s e hkey, step_input_length, step_buffer, hsize]
      have := ih es (keystroke s e) (pre ++ [b]) post (by omega) hs1 hes
        (fun x hx => hstr x (List.mem_cons_of_mem _ hx))
        (by rw [k1, hcstr]; simp)
        (by rw [k3]; simp; omega)
      rw [k3, k9, k10] at this
      simp only [List.length_cons, Nat.cast_add, Nat.cast_one]
      omega

theorem run_of_completed (s : Session) (es : List Event) (h : completed s = true) :
    run s es = s := by
  have hr : ¬ (running s = true) := by
    unfold completed at h
    simpa using h
  cases es with
  | nil => rfl
  | cons e es => simp only [run, if_neg hr]

/-- C3. Completion: in every state that the loop reaches from its start, the
session is completed, and takes no further key, if and only if `pos` equals the
length of the reference text. For every non-empty reference text, feeding
exactly its characters in order gives `pos = chr = k` and `incor = 0` after `k`
keys, so the session is not completed after each of the first `len - 1` keys
and completed after exactly `len` keys, with `chr = len`, `incor = 0` and, in
the final statistics, an accuracy of 100. The accuracy is the quotient
`100.0 * len / (float)len` with doubles and floats taken as exact rationals
(in the arithmetic of the machine `(float)len` is `len` up to `2^24`
characters). -/
theorem completion (raw : List Byte) (rows columns : Int) (events : List Event) (k : Nat)
    (hne : referenceText raw ≠ [])
    (hkeys : events.map Event.ch = (referenceText raw).map (fun b => (b.val : Int)))
    (hk : k ≤ (referenceText raw).length) :
    (∀ evs : List Event,
      (completed (run (start raw rows columns) evs) = true
        ↔ (run (start raw rows columns) evs).pos = ((referenceText raw).length : Int))
      ∧ (completed (run (start raw rows columns) evs) = true →
          ∀ more, run (start raw rows columns) (evs ++ more)
            = run (start raw rows columns) evs))
    ∧ (run (start raw rows columns) (events.take k)).pos = (k : Int)
    ∧ (run (start raw rows columns) (events.take k)).stats.chr = (k : Int)
    ∧ (run (start raw rows columns) (events.take k)).stats.incor = 0
    ∧ (completed (run (start raw rows columns) (events.take k)) = true
        ↔ k = (referenceText raw).length)
    ∧ completed (run (start raw rows columns) events) = true
    ∧ (run (start raw rows columns) events).stats.chr = ((referenceText raw).length : Int)
    ∧ (run (start raw rows columns) events).stats.incor = 0
    ∧ (∀ now : ℚ,
        (print_final_stats (run (start raw rows columns) events).stats now).accuracy
          = 100) := by
  obtain ⟨-, f2, f3, f4, f5, f6, f7⟩ := start_fields raw rows columns
  have hiff : ∀ evs : List Event,
      (completed (run (start raw rows columns) evs) = true
        ↔ (run (start raw rows columns) evs).pos = ((referenceText raw).length : Int)) := by
    intro evs
    have hb := run_pos_bounds evs (start raw rows columns) (by rw [f3])
      (by rw [f3, f6]; exact Int.natCast_nonneg _)
    have := completed_iff_of_bounds (run (start raw rows columns) evs) hb.1
      (by rw [run_buffer]; exact hb.2)
    rw [run_buffer, f6] at this
    exact this
  have hfirst : ∀ j : Nat, j ≤ (referenceText raw).length →
      (run (start raw rows columns) (events.take j)).pos = (j : Int)
      ∧ (run (start raw rows columns) (events.take j)).stats.chr = (j : Int)
      ∧ (run (start raw rows columns) (events.take j)).stats.incor = 0 := by
    intro j hj
    have hmap : (events.take j).map Event.ch
        = ((referenceText raw).take j).map (fun b => (b.val : Int)) := by
      rw [List.map_take, List.map_take, hkeys]
    have hl : ((referenceText raw).take j).length = j := by
      rw [List.length_take]
      omega
    have := run_right ((referenceText raw).take j) (events.take j) (start raw rows columns)
      [] ((referenceText raw).drop j) (by rw [f3]) f2 hmap
      (fun b hb => (mem_referenceText raw b (List.mem_of_mem_take hb)).2.1)
      (by rw [f7]; simp)
      (by rw [f3]; rfl)
    rw [f3, f4, f5, hl] at this
    simpa using this
  have hall : events.take (referenceText raw).length = events := by
    apply List.take_of_length_le
    have := congrArg List.length hkeys
    simp only [List.length_map] at this
    omega
  have hfull := hfirst (referenceText raw).length (le_refl _)
  rw [hall] at hfull
  have hpos : 0 < (referenceText raw).length := List.length_pos.2 hne
  refine ⟨?_, (hfirst k hk).1, (hfirst k hk).2.1, (hfirst k hk).2.2, ?_, ?_,
    hfull.2.1, hfull.2.2, ?_⟩
  · intro evs
    refine ⟨hiff evs, ?_⟩
    intro hc more
    rw [run_append, run_of_completed _ more hc]
  · rw [hiff, (hfirst k hk).1]
    exact Int.ofNat_inj
  · rw [hiff]
    exact hfull.1
  · intro now
    have hne0 : ((((referenceText raw).length : Nat) : Int) : ℚ) ≠ 0 := by
      have : (0 : ℚ) < (((referenceText raw).length : Nat) : ℚ) := by exact_mod_cast hpos
      simpa using (ne_of_gt this)
    simp only [print_final_stats, hfull.2.1, hfull.2.2, sub_zero]
    exact mul_div_cancel_right₀ _ hne0

/-! ## The statistics -/

/-- The live line outside the range of the `int` product: with 21474837 keys,
none of them wrong, `100 * (chr - incor)` is `2147483700`, above `INT_MAX`; it
wraps to `-2147483596` and the live accuracy is about `-100`, while the final
statistics, whose product is a product of doubles, give `100`. -/
theorem print_stats_wraps :
    ¬ (100 * ((21474837 : Int) - 0) ≤ INT_MAX)
    ∧ wrap32 (100 * (21474837 - 0)) = -2147483596
    ∧ (print_stats { start_time := 1000, chr := 21474837, wd := 0, incor := 0 } 1030).accuracy
        = (-2147483596 : ℚ) / 21474837
    ∧ (print_final_stats
        { start_time := 1000, chr := 21474837, wd := 0, incor := 0 } 1030).accuracy = 100 := by
  have hw : wrap32 (100 * (21474837 - 0)) = -2147483596 := by decide
  refine ⟨by decide, hw, ?_, ?_⟩
  · simp only [print_stats, hw]
    norm_num
  · simp only [print_final_stats]
    norm_num

theorem peek_zero_iff (mem : List Byte) : peek mem 0 = 0 ↔ cstr mem = [] := by
  cases mem with
  | nil => simp [peek, cstr]
  | cons x xs =>
    by_cases hx : x = 0
    · simp [peek, cstr, hx]
    · simp [peek, cstr, hx, List.takeWhile_cons]

theorem typing_rejects_iff (raw : List Byte) (w : World) :
    (referenceText raw = [] → typing (some raw) w = quit_error msg_empty)
    ∧ (referenceText raw ≠ [] → typing (some raw) w ≠ quit_error msg_empty
        ∧ (typing (some raw) w).session ≠ none) := by
  have hp := peek_zero_iff (start raw w.rows w.columns).buffer
  have hpos : (start raw w.rows w.columns).pos = 0 := rfl
  have hc : cstr (start raw w.rows w.columns).buffer = referenceText raw := rfl
  rw [hc] at hp
  constructor
  · intro h
    simp only [typing, hpos, if_pos (hp.2 h)]
  · intro h
    have hn : ¬ peek (start raw w.rows w.columns).buffer 0 = 0 := fun h0 => h (hp.1 h0)
    have hs : (typing (some raw) w).session ≠ none := by
      simp only [typing, hpos, if_neg hn]
      split
      · split
        · simp [handle_signal]
        · simp
      · simp
    refine ⟨?_, hs⟩
    intro heq
    rw [heq] at hs
    exact hs rfl

theorem sanitize_eq_nil_of_stripped (raw : List Byte) (h : ∀ b ∈ raw, stripped b = true) :
    sanitize raw = [] := by
  unfold sanitize
  rw [List.filter_eq_nil_iff]
  intro b hb
  simp [h b hb]

/-- C8, as amended. Empty-input rejection: every raw input that is empty or
consists only of newline, tab and carriage-return bytes is rejected at load
time with the empty-input error (`endwin`, the message on standard error,
`exit(0)`) and the typing loop is never entered; loading fails this way
whenever the sanitized sequence has length 0, so every session that starts has
a reference text of length `> 0`. -/
theorem empty_input_rejected (raw : List Byte) (w : World) :
    ((∀ b ∈ raw, stripped b = true) → typing (some raw) w = quit_error msg_empty)
    ∧ ((sanitize raw).length = 0 → typing (some raw) w = quit_error msg_empty)
    ∧ (quit_error msg_empty).effects = [Effect.endwin, Effect.stderr msg_empty]
    ∧ (quit_error msg_empty).ending = Ending.exited 0
    ∧ (quit_error msg_empty).session = none
    ∧ ((typing (some raw) w).session ≠ none → 0 < (referenceText raw).length) := by
  have hlen : (sanitize raw).length = 0 → typing (some raw) w = quit_error msg_empty := by
    intro h
    apply (typing_rejects_iff raw w).1
    rw [referenceText_eq, List.length_eq_zero.1 h]
    rfl
  refine ⟨?_, hlen, rfl, rfl, rfl, ?_⟩
  · intro h
    apply hlen
    rw [sanitize_eq_nil_of_stripped raw h]
    rfl
  · intro hs
    by_cases hr : referenceText raw = []
    · rw [(typing_rejects_iff raw w).1 hr] at hs
      exact absurd rfl hs
    · exact List.length_pos.2 hr

/-- C8, a witness: the file `"\n\t\r\n"` is rejected. -/
theorem empty_input_rejected_witness :
    typing (some [10, 9, 13, 10]) ⟨some [10, 9, 13, 10], 24, 80, [], false, 0⟩
      = quit_error msg_empty :=
  (empty_input_rejected [10, 9, 13, 10] ⟨some [10, 9, 13, 10], 24, 80, [], false, 0⟩).1
    (by simp [stripped]; decide)

/-- C8, the counterexample: a file that holds one space is whitespace only, yet
it is not rejected; the loop is entered with the reference text `" "` and waits
for a key, and typing the space completes the session. -/
theorem space_file_counterexample :
    referenceText [32] = [32]
    ∧ typing (some [32]) ⟨some [32], 24, 80, [], false, 0⟩ ≠ quit_error msg_empty
    ∧ (typing (some [32]) ⟨some [32], 24, 80, [], false, 0⟩).ending = Ending.blocked
    ∧ (typing (some [32]) ⟨some [32], 24, 80, [], false, 0⟩).effects = []
    ∧ (typing (some [32]) ⟨some [32], 24, 80, [], false, 0⟩).session
        = some (start [32] 24 80)
    ∧ (typing (some [32]) ⟨some [32], 24, 80, [⟨32, 1, 24, 80⟩], false, 2⟩).ending
        = Ending.returned := by
  decide

/-! ## The signal handler and the exit status -/

theorem keystroke_current (s : Session) (e : Event) :
    (keystroke s e).current_stats = (stamp s e.time).current_stats
    ∧ (keystroke s e).stats.start_time = (stamp s e.time).stats.start_time := by
  obtain ⟨-, -, -, -, -, -, -, -, -, a10, a11⟩ := advance_fields (stamp s e.time) e.ch
  obtain ⟨-, -, -, -, -, -, -, r8, r9⟩ := rebase_fields (advance (stamp s e.time) e.ch)
  obtain ⟨-, -, -, -, -, -, -, -, -, c10, c11⟩ :=
    count_fields (rebase (advance (stamp s e.time) e.ch))
  unfold keystroke
  exact ⟨by rw [c11, r9, a11], by rw [c10, r8, a10]⟩

theorem keystroke_registered (s : Session) (e : Event) (h : Registered s) :
    Registered (keystroke s e) := by
  obtain ⟨h1, h2, h3⟩ := h
  have hchr : (keystroke s e).stats.chr = s.stats.chr + 1 :=
    (keystroke_fields s e).2.2.2.2.2.2.2.2.1
  have hstamp : (stamp s e.time).current_stats = true := by
    unfold stamp
    by_cases h0 : s.stats.start_time = 0
    · rw [if_pos h0]
    · rw [if_neg h0]
      exact h3 h0
  have hge : 0 ≤ s.stats.chr := by
    cases hc : s.current_stats
    · have := h2.1 hc
      omega
    · have := h1.1 hc
      omega
  unfold Registered
  rw [hchr, (keystroke_current s e).1, hstamp]
  refine ⟨?_, ?_, ?_⟩
  · simp
    omega
  · simp
    omega
  · intro _
    rfl

theorem keystroke_stamped (s : Session) (e : Event) (ht : e.time ≠ 0) :
    Stamped (keystroke s e) := by
  unfold Stamped
  rw [(keystroke_current s e).1, (keystroke_current s e).2]
  unfold stamp
  by_cases h0 : s.stats.start_time = 0
  · rw [if_pos h0]
    intro _
    exact ht
  · rw [if_neg h0]
    intro _
    exact h0

theorem run_registered (es : List Event) :
    ∀ s : Session, Registered s → Registered (run s es) := by
  induction es with
  | nil => intro s h; exact h
  | cons e es ih =>
    intro s h
    simp only [run]
    split
    · apply ih (step s e)
      unfold step
      split
      · exact h
      · exact keystroke_registered s e h
    · exact h

theorem run_stamped (es : List Event) :
    ∀ s : Session, (∀ e ∈ es, e.time ≠ 0) → Stamped s → Stamped (run s es) := by
  induction es with
  | nil => intro s _ h; exact h
  | cons e es ih =>
    intro s ht h
    simp only [run]
    split
    · apply ih (step s e) (fun x hx => ht x (List.mem_cons_of_mem _ hx))
      unfold step
      split
      · exact h
      · exact keystroke_stamped s e (ht e (List.mem_cons_self _ _))
    · exact h

theorem run_resizes (es : List Event) :
    ∀ s : Session, (∀ e ∈ es, e.ch = KEY_RESIZE) → (run s es).stats = s.stats := by
  induction es with
  | nil => intro s _; rfl
  | cons e es ih =>
    intro s h
    simp only [run]
    split
    · rw [ih (step s e) (fun x hx => h x (List.mem_cons_of_mem _ hx))]
      unfold step
      rw [if_pos (h e (List.mem_cons_self _ _))]
      rfl
    · rfl

theorem typing_of_started (raw : List Byte) (w : World) (hstart : referenceText raw ≠ []) :
    typing (some raw) w
      = if running (run (start raw w.rows w.columns) w.events) = true then
          (if w.signal = true then
            handle_signal (run (start raw w.rows w.columns) w.events) w.time
          else
            { effects := []
              ending := Ending.blocked
              session := some (run (start raw w.rows w.columns) w.events) })
        else
          { effects :=
              [Effect.endwin,
                Effect.final_stats
                  (print_final_stats (run (start raw w.rows w.columns) w.events).stats w.time)]
            ending := Ending.returned
            session :=
              some { run (start raw w.rows w.columns) w.events with current_stats := false } } := by
  have hp := peek_zero_iff (start raw w.rows w.columns).buffer
  have hpos : (start raw w.rows w.columns).pos = 0 := rfl
  have hc : cstr (start raw w.rows w.columns).buffer = referenceText raw := rfl
  rw [hc] at hp
  have hn : ¬ peek (start raw w.rows w.columns).buffer 0 = 0 := fun h0 => hstart (hp.1 h0)
  simp only [typing, hpos, if_neg hn]

/-- C9. Interrupt handling never divides by a zero keystroke count: for every
file whose session starts and every sequence of input events (the empty one
and those of resizes only among them) followed by an interrupt delivered while
the loop waits for the next event, the handler restores the terminal exactly
once and exits; it computes the final statistics exactly when the statistics
are registered, in which case `chr >= 1` and, the clock never reading zero,
`start_time` is set; with no keystroke recorded yet (`chr = 0`, as after
resizes only) it computes no statistics. -/
theorem interrupt_statistics (raw : List Byte) (w : World)
    (hstart : referenceText raw ≠ [])
    (hwait : running (run (start raw w.rows w.columns) w.events) = true)
    (hsig : w.signal = true) :
    typing (some raw) w = handle_signal (run (start raw w.rows w.columns) w.events) w.time
    ∧ (typing (some raw) w).effects.count Effect.endwin = 1
    ∧ (typing (some raw) w).ending = Ending.exited 0
    ∧ ((run (start raw w.rows w.columns) w.events).current_stats = true →
        (typing (some raw) w).effects
          = [Effect.endwin,
              Effect.final_stats
                (print_final_stats (run (start raw w.rows w.columns) w.events).stats w.time)]
        ∧ 1 ≤ (run (start raw w.rows w.columns) w.events).stats.chr
        ∧ ((∀ e ∈ w.events, e.time ≠ 0) →
            (run (start raw w.rows w.columns) w.events).stats.start_time ≠ 0))
    ∧ ((run (start raw w.rows w.columns) w.events).current_stats = false →
        (typing (some raw) w).effects = [Effect.endwin])
    ∧ ((run (start raw w.rows w.columns) w.events).stats.chr = 0 →
        (typing (some raw) w).effects = [Effect.endwin])
    ∧ ((∀ e ∈ w.events, e.ch = KEY_RESIZE) →
        (typing (some raw) w).effects = [Effect.endwin]) := by
  have ht : typing (some raw) w
      = handle_signal (run (start raw w.rows w.columns) w.events) w.time := by
    rw [typing_of_started raw w hstart, if_pos hwait, if_pos hsig]
  have hreg : Registered (run (start raw w.rows w.columns) w.events) :=
    run_registered w.events (start raw w.rows w.columns) (by simp [Registered, start, init])
  obtain ⟨g1, g2, -⟩ := hreg
  have hfalse : (run (start raw w.rows w.columns) w.events).current_stats = false →
      (typing (some raw) w).effects = [Effect.endwin] := by
    intro hc
    rw [ht]
    simp [handle_signal, registered, hc]
  have htrue : (run (start raw w.rows w.columns) w.events).current_stats = true →
      (typing (some raw) w).effects
        = [Effect.endwin,
            Effect.final_stats
              (print_final_stats (run (start raw w.rows w.columns) w.events).stats w.time)] := by
    intro hc
    rw [ht]
    simp [handle_signal, registered, hc]
  refine ⟨ht, ?_, by rw [ht]; rfl, ?_, hfalse, fun h0 => hfalse (g2.2 h0), ?_⟩
  · cases hc : (run (start raw w.rows w.columns) w.events).current_stats
    · rw [hfalse hc]
      rfl
    · rw [htrue hc]
      rfl
  · intro hc
    refine ⟨htrue hc, g1.1 hc, ?_⟩
    intro htimes
    exact run_stamped w.events (start raw w.rows w.columns) htimes
      (by simp [Stamped, start, init]) hc
  · intro hres
    apply hfalse
    apply g2.2
    rw [run_resizes w.events _ hres]
    rfl

/-- C10, as amended. Exit status: an invocation without a file argument
(`argc < 2`) prints an error to standard error, starts no session and exits
with status 0; a session that completes normally prints the final statistics
and exits with status 1, the value that `main` returns after `typing`; and a
session terminated by an interrupt signal exits with status 0. -/
theorem exit_status (argc : Int) (w : World) :
    (argc < 2 →
      main argc w
        = { effects := [Effect.stderr msg_arguments]
            ending := Ending.exited 0
            session := none })
    ∧ (∀ raw : List Byte, 2 ≤ argc → w.file = some raw → referenceText raw ≠ [] →
        (completed (run (start raw w.rows w.columns) w.events) = true →
          (main argc w).ending = Ending.exited 1
          ∧ (main argc w).effects
              = [Effect.endwin,
                  Effect.final_stats
                    (print_final_stats (run (start raw w.rows w.columns) w.events).stats
                      w.time)])
        ∧ (running (run (start raw w.rows w.columns) w.events) = true → w.signal = true →
            (main argc w).ending = Ending.exited 0
            ∧ main argc w
                = handle_signal (run (start raw w.rows w.columns) w.events) w.time)) := by
  refine ⟨?_, ?_⟩
  · intro h
    have : ¬ argc ≥ 2 := by omega
    simp only [main, if_neg this]
  · intro raw h hfile hstart
    have ht := typing_of_started raw w hstart
    have h2 : argc ≥ 2 := h
    refine ⟨?_, ?_⟩
    · intro hc
      have hr : ¬ running (run (start raw w.rows w.columns) w.events) = true := by
        unfold completed at hc
        simpa using hc
      simp only [main, if_pos h2, hfile, ht, if_neg hr]
      exact ⟨trivial, trivial⟩
    · intro hr hsig
      simp only [main, if_pos h2, hfile, ht, if_pos hr, if_pos hsig]
      constructor <;> rfl

/-- C10, a witness: the file `"a"`, once without a file argument, once typed to
the end, once interrupted before any key. -/
theorem exit_status_witness :
    main 1 ⟨some [97], 24, 80, [], false, 2⟩
      = { effects := [Effect.stderr msg_arguments]
          ending := Ending.exited 0
          session := none }
    ∧ (main 2 ⟨some [97], 24, 80, [⟨97, 1, 24, 80⟩], false, 2⟩).ending = Ending.exited 1
    ∧ (main 2 ⟨some [97], 24, 80, [], true, 2⟩).ending = Ending.exited 0 :=
  ⟨(exit_status 1 ⟨some [97], 24, 80, [], false, 2⟩).1 (by decide),
   (((exit_status 2 ⟨some [97], 24, 80, [⟨97, 1, 24, 80⟩], false, 2⟩).2 [97]
      (by decide) rfl (by decide)).1 (by decide)).1,
   (((exit_status 2 ⟨some [97], 24, 80, [], true, 2⟩).2 [97]
      (by decide) rfl (by decide)).2 (by decide) rfl).1⟩

/-- C10, the counterexample: the file `"a"` typed to the end. The session
completes normally and the status of the process is 1, not 0. -/
theorem normal_exit_counterexample :
    completed (run (start [97] 24 80) [⟨97, 1, 24, 80⟩]) = true
    ∧ (typing (some [97]) ⟨some [97], 24, 80, [⟨97, 1, 24, 80⟩], false, 2⟩).ending
        = Ending.returned
    ∧ (main 2 ⟨some [97], 24, 80, [⟨97, 1, 24, 80⟩], false, 2⟩).ending = Ending.exited 1
    ∧ (main 2 ⟨some [97], 24, 80, [⟨97, 1, 24, 80⟩], false, 2⟩).ending ≠ Ending.exited 0 := by
  decide

/-- C9, a witness: the file `"ab"`, one wrong key and a resize, then the
interrupt. -/
theorem interrupt_statistics_witness :
    (typing (some [97, 98])
        ⟨some [97, 98], 24, 80, [⟨120, 5, 24, 80⟩, ⟨410, 6, 30, 100⟩], true, 7⟩).effects.count
        Effect.endwin = 1
    ∧ (typing (some [97, 98])
        ⟨some [97, 98], 24, 80, [⟨120, 5, 24, 80⟩, ⟨410, 6, 30, 100⟩], true, 7⟩).ending
        = Ending.exited 0 :=
  ⟨(interrupt_statistics [97, 98]
      ⟨some [97, 98], 24, 80, [⟨120, 5, 24, 80⟩, ⟨410, 6, 30, 100⟩], true, 7⟩
      (by decide) (by decide) rfl).2.1,
   (interrupt_statistics [97, 98]
      ⟨some [97, 98], 24, 80, [⟨120, 5, 24, 80⟩, ⟨410, 6, 30, 100⟩], true, 7⟩
      (by decide) (by decide) rfl).2.2.1⟩

/-- C1, a witness: the reference text `" "` and the enter key. -/
theorem keystroke_step_witness :
    (step (start [32] 24 80) ⟨10, 1, 24, 80⟩).stats.chr = (start [32] 24 80).stats.chr + 1
    ∧ (step (start [32] 24 80) ⟨10, 1, 24, 80⟩).pos = (start [32] 24 80).pos + 1
    ∧ (step (start [32] 24 80) ⟨10, 1, 24, 80⟩).stats.incor
        = (start [32] 24 80).stats.incor :=
  ⟨(keystroke_step (start [32] 24 80) ⟨10, 1, 24, 80⟩
      (by decide) (by decide) (by decide) (by decide) (by decide)).2.2.2.2.2.2.2.2.2.1,
   (keystroke_step (start [32] 24 80) ⟨10, 1, 24, 80⟩
      (by decide) (by decide) (by decide) (by decide) (by decide)).2.2.2.2.2.2.2.2.2.2.1
      rfl (by decide)⟩

/-- C3, a witness: the file `"ab"` and the keys `'a'`, `'b'`. After one key the
session is not completed, after two it is. -/
theorem completion_witness :
    (completed (run (start [97, 98] 24 80)
        (List.take 1 [⟨97, 1, 24, 80⟩, ⟨98, 2, 24, 80⟩])) = true
      ↔ 1 = (referenceText [97, 98]).length)
    ∧ completed (run (start [97, 98] 24 80) [⟨97, 1, 24, 80⟩, ⟨98, 2, 24, 80⟩]) = true
    ∧ (run (start [97, 98] 24 80) [⟨97, 1, 24, 80⟩, ⟨98, 2, 24, 80⟩]).stats.chr
        = ((referenceText [97, 98]).length : Int)
    ∧ (run (start [97, 98] 24 80) [⟨97, 1, 24, 80⟩, ⟨98, 2, 24, 80⟩]).stats.incor = 0 :=
  ⟨(completion [97, 98] 24 80 [⟨97, 1, 24, 80⟩, ⟨98, 2, 24, 80⟩] 1
      (by decide) (by decide) (by decide)).2.2.2.2.1,
   (completion [97, 98] 24 80 [⟨97, 1, 24, 80⟩, ⟨98, 2, 24, 80⟩] 1
      (by decide) (by decide) (by decide)).2.2.2.2.2.1,
   (completion [97, 98] 24 80 [⟨97, 1, 24, 80⟩, ⟨98, 2, 24, 80⟩] 1
      (by decide) (by decide) (by decide)).2.2.2.2.2.2.1,
   (completion [97, 98] 24 80 [⟨97, 1, 24, 80⟩, ⟨98, 2, 24, 80⟩] 1
      (by decide) (by decide) (by decide)).2.2.2.2.2.2.2.1⟩

/-- C4, a witness: width 2, the cursor in column 1, and a right key: the column
reached is 2, above the half width 1, and the window moves by 1. -/
theorem scroll_rebase_witness :
    (step (run (start [97, 98, 99] 24 2) [⟨97, 1, 24, 2⟩]) ⟨98, 2, 24, 2⟩).spos
        = (run (start [97, 98, 99] 24 2) [⟨97, 1, 24, 2⟩]).spos
          + ((advance (stamp (run (start [97, 98, 99] 24 2) [⟨97, 1, 24, 2⟩]) 2) 98).cpos
              - half 2)
    ∧ (step (run (start [97, 98, 99] 24 2) [⟨97, 1, 24, 2⟩]) ⟨98, 2, 24, 2⟩).cpos = half 2 :=
  (scroll_rebase 2 (run (start [97, 98, 99] 24 2) [⟨97, 1, 24, 2⟩]) ⟨98, 2, 24, 2⟩
    (by decide) (by decide) (by decide)).2.1 (by decide)

end Typing
